import Mathlib

/-!
Verification of the Newman-Ziff percolation core in `cncp`
(`src/cncp/newmanziff.py` and `src/cncp/extendednewmanziff.py`).

Modelling conventions:

* Node slots are `Nat` indices; the components array (`self._components`)
  is a `List Int` (entry ≥ 0 is a parent slot index, entry < 0 is minus the
  size of the component rooted there); the generation-tag array
  (`self._networks`) is a `List Int`.
* Python floats (sample probabilities, `(i+1)/M`) are modelled as `ℚ`.
  Every concrete comparison appearing in a theorem below is robust: the
  rational result and the double-precision result agree on those inputs.
* Fallible operations return `Option`: `none` models a raised Python
  exception (an `IndexError` from an out-of-range list index, or a
  `RecursionError`/type fault in `rootOf`).  Recursive procedures take an
  explicit fuel argument; the source recursion terminates exactly on the
  states where a large enough fuel makes the model return `some`.
-/

namespace CNCP

abbrev Node := Nat

abbrev Edge := Node × Node

namespace BondPercolation

/-- State of a `BondPercolation` experiment: the union-find components
array and the running GCC size (`newmanziff.py` lines 26-29, 61-68). -/
structure State where
  components : List Int
  gcc : Int
deriving Repr, DecidableEq

/-- Intended `BondPercolation.setUp` (`newmanziff.py` lines 61-68).  The
source line `self._components = numpy.full(N, -1, numpy.int32)` reads a
variable `N` that is bound nowhere in the method's scope (the residual
variant binds `N = self.network().order()` at `extendednewmanziff.py`
line 40); the parameter `N` here stands for that intended node count.
Running the source as written raises `NameError`. -/
def setUp (N : Nat) : State :=
  ⟨List.replicate N (-1), 1⟩

/-- `BondPercolation.rootOf` (`newmanziff.py` lines 70-83): follow parent
links to the root, then repoint the visited slot at the root (path
compression).  Fuel bounds the recursion depth; `none` models a slot index
out of range or fuel exhaustion (the source would raise). -/
def rootOf : Nat → List Int → Node → Option (Node × List Int)
  | 0, _, _ => none
  | fuel + 1, comp, n =>
    match comp.get? n with
    | none => none
    | some np =>
      if np < 0 then
        some (n, comp)
      else
        match rootOf fuel comp np.toNat with
        | none => none
        | some (r, comp1) => some (r, comp1.set n (Int.ofNat r))

/-- `BondPercolation.join` (`newmanziff.py` lines 95-109): hang `c2` under
`c1`, add `c2`'s size into `c1`, update the GCC maximum, and return the
size of the merged component. -/
def join (st : State) (c1 c2 : Node) : Int × State :=
  let msize := st.components.getD c2 0
  let comps1 := st.components.set c2 (Int.ofNat c1)
  let comps2 := comps1.set c1 (comps1.getD c1 0 + msize)
  let csize := - comps2.getD c1 0
  (csize, ⟨comps2, max st.gcc csize⟩)

/-- `BondPercolation.occupy` (`newmanziff.py` lines 85-93): resolve both
endpoints' roots; join them when distinct, otherwise do nothing. -/
def occupy (fuel : Nat) (st : State) (n m : Node) : Option (Option Int × State) := do
  let (nr, comps1) ← rootOf fuel st.components n
  let (mr, comps2) ← rootOf fuel comps1 m
  let st2 : State := ⟨comps2, st.gcc⟩
  if mr ≠ nr then
    let (cs, st3) := join st2 nr mr
    return (some cs, st3)
  else
    return (none, st2)

/-- One emitted result record of `BondPercolation.sample`
(`newmanziff.py` lines 111-115): the probability and the GCC size. -/
abbrev Sample := ℚ × Int

/-- The `for i in range(M)` loop of `BondPercolation.percolate`
(`newmanziff.py` lines 126-143).  `rem` is the not-yet-visited suffix of
the edge permutation, `i` the current index, `sp` the `samplePoint`
cursor.  The unguarded read `self._samples[samplePoint]` in the loop
condition is modelled by `ss.get? sp`, whose failure (`none`) is the
source's `IndexError`. -/
def percolateLoop (ss : List ℚ) (M : Nat) :
    List Edge → Nat → Nat → State → Option (List Sample × State)
  | [], _, _, st => some ([], st)
  | (n, m) :: rest, i, sp, st => do
    let (_, st1) ← occupy (st.components.length + 1) st n m
    match ss.get? sp with
    | none => none
    | some p =>
      if ((i : ℚ) + 1) / (M : ℚ) ≥ p then
        let s : Sample := (p, st1.gcc)
        if sp + 1 > ss.length then
          some ([s], st1)
        else do
          let (res, st2) ← percolateLoop ss M rest (i + 1) (sp + 1) st1
          return (s :: res, st2)
      else
        percolateLoop ss M rest (i + 1) sp st1

/-- `BondPercolation.percolate` (`newmanziff.py` lines 117-144): emit an
initial sample when the smallest configured probability is exactly 0,
then walk the permuted edge list.  The read `self._samples[0]` is
unguarded in the source, so an empty sample list is a fault (`none`). -/
def percolate (ss : List ℚ) (es : List Edge) (st : State) :
    Option (List Sample × State) := do
  let p0 ← ss.get? 0
  if p0 = 0 then
    let s : Sample := (p0, st.gcc)
    let (res, st1) ← percolateLoop ss es.length es 0 1 st
    return (s :: res, st1)
  else
    percolateLoop ss es.length es 0 0 st

end BondPercolation

namespace ResidualBondPercolation

/-- Fixed configuration of a `ResidualBondPercolation` experiment: the
sorted sample probabilities (`self._samples`), the residual depth bound
(`self._residuals`), and the order of the underlying network. -/
structure Config where
  samples : List ℚ
  residuals : Int
  order : Nat
deriving Repr, DecidableEq

/-- Mutable state of a `ResidualBondPercolation` experiment
(`extendednewmanziff.py` lines 32-42): components array, generation-tag
array (`self._networks`), current-generation GCC, parent generation
boundary, generation counter, and the accumulated shallower-depth
probabilities (`self._phis`, keyed here by the depth that determines the
`P_RESIDUAL(depth)` string key). -/
structure State where
  components : List Int
  networks : List Int
  gcc : Int
  parent : Int
  networkIndex : Int
  phis : List (Int × ℚ)
deriving Repr, DecidableEq

/-- `ResidualBondPercolation.setUp` (`extendednewmanziff.py` lines
32-42): generation counter 0, parent boundary 0, empty `phis`, GCC 1,
all slots singleton roots tagged with generation 1. -/
def setUp (cfg : Config) : State :=
  ⟨List.replicate cfg.order (-1), List.replicate cfg.order 1, 1, 0, 0, []⟩

/-- `ResidualBondPercolation.rootOf` (`extendednewmanziff.py` lines
44-84).  The result's first part is `none` when the slot is inaccessible
to `network` (the source's `return None`); the outer `none` models a
fault: slot index out of range, fuel exhaustion, or the recursive call
returning `None` (the source would then store `None` into the int array,
a type fault; the commented-out assertion at line 69 documents that this
is not expected to happen). -/
def rootOf : Nat → State → Node → Int → Option (Option Node × State)
  | 0, _, _, _ => none
  | fuel + 1, st, n, network => do
    let np ← st.components.get? n
    let nn ← st.networks.get? n
    if np = -1 then
      return (some n, { st with networks := st.networks.set n network })
    else if nn = network then
      if np < 0 then
        return (some n, st)
      else do
        let (r?, st1) ← rootOf fuel st np.toNat network
        match r? with
        | none => none
        | some r =>
          return (some r, { st1 with components := st1.components.set n (Int.ofNat r) })
    else if nn > st.parent then
      return (some n, { st with components := st.components.set n (-1),
                                networks := st.networks.set n network })
    else
      return (none, st)

/-- `ResidualBondPercolation.orderOfNetwork` (`extendednewmanziff.py`
lines 86-90): the number of slots currently tagged with `network`. -/
def orderOfNetwork (st : State) (network : Int) : Nat :=
  if network < 1 then 0 else (st.networks.filter (fun t => t = network)).length

/-- `ResidualBondPercolation.join` (`extendednewmanziff.py` lines
107-123): hang `c2` under `c1`, subtract `c2`'s size, update the
current-generation GCC maximum, return the merged size. -/
def join (st : State) (c1 c2 : Node) : Int × State :=
  let c1size := - st.components.getD c1 0
  let c2size := - st.components.getD c2 0
  let comps1 := st.components.set c2 (Int.ofNat c1)
  let comps2 := comps1.set c1 (comps1.getD c1 0 - c2size)
  let csize := c1size + c2size
  (csize, { st with components := comps2, gcc := max st.gcc csize })

/-- `ResidualBondPercolation.occupy` (`extendednewmanziff.py` lines
92-105): resolve both endpoints for `network`; if either is inaccessible
do nothing, otherwise join distinct roots. -/
def occupy (fuel : Nat) (st : State) (n m : Node) (network : Int) :
    Option (Option Int × State) := do
  let (nr?, st1) ← rootOf fuel st n network
  let (mr?, st2) ← rootOf fuel st1 m network
  match nr?, mr? with
  | some nr, some mr =>
    if mr ≠ nr then
      let (cs, st3) := join st2 nr mr
      return (some cs, st3)
    else
      return (none, st2)
  | _, _ => return (none, st2)

/-- One result record built by `ResidualBondPercolation.sample`
(`extendednewmanziff.py` lines 125-143): the shallower-depth
probabilities (`self._phis.copy()`), depth, residual-network order `N`,
edge count `M`, this record's probability (stored in the source under the
depth-determined key `P_RESIDUAL(depth)`), and the GCC.  The `network`
field is a ghost annotation: it records the generation (the `network`
argument of `sample`) that emitted the record, is needed only to state
per-generation properties, and influences no computation. -/
structure Sample where
  phis : List (Int × ℚ)
  depth : Int
  N : Int
  M : Nat
  p : ℚ
  gcc : Int
  network : Int
deriving Repr, DecidableEq

/-- Overwrite the entry for key `k` (`self._phis[phi] = p`). -/
def phisSet (l : List (Int × ℚ)) (k : Int) (v : ℚ) : List (Int × ℚ) :=
  (k, v) :: l.filter (fun e => e.1 ≠ k)

/-- Delete the entry for key `k` (`del self._phis[phi]`). -/
def phisDel (l : List (Int × ℚ)) (k : Int) : List (Int × ℚ) :=
  l.filter (fun e => e.1 ≠ k)

mutual

/-- `ResidualBondPercolation.sample` (`extendednewmanziff.py` lines
125-143): build this generation's record; below the residual depth bound,
re-percolate the unconsumed edge suffix and append the recursive
samples. -/
def sample : Nat → Config → State → ℚ → List Edge → Nat → Int → Nat → Int → Int →
    Option (List Sample × State)
  | 0, _, _, _, _, _, _, _, _, _ => none
  | fuel + 1, cfg, st, p, es, nexti, N, M, depth, network =>
    let s : Sample := ⟨st.phis, depth, N, M, p, st.gcc, network⟩
    if depth < cfg.residuals then do
      let (more, st1) ← repercolate fuel cfg st p (es.drop nexti) depth network
      return (s :: more, st1)
    else
      some ([s], st)

/-- `ResidualBondPercolation.repercolate` (`extendednewmanziff.py` lines
145-156): record this depth's probability, save the GCC and parent
boundary, run a child percolation pass with parent boundary `network` and
GCC 1, then restore. -/
def repercolate : Nat → Config → State → ℚ → List Edge → Int → Int →
    Option (List Sample × State)
  | 0, _, _, _, _, _, _ => none
  | fuel + 1, cfg, st, p, es, depth, network => do
    let st1 := { st with phis := phisSet st.phis depth p, parent := network, gcc := 1 }
    let (ss, st2) ← percolate fuel cfg st1 es (depth + 1)
    return (ss, { st2 with phis := phisDel st2.phis depth, gcc := st.gcc,
                           parent := st.parent })

/-- `ResidualBondPercolation.percolate` (`extendednewmanziff.py` lines
158-188): compute this pass's residual order `N` and edge count `M`,
allocate a fresh generation id, emit the probability-0 sample when
configured (the read `self._samples[0]` is unguarded, so an empty sample
list is a fault), and run the edge loop. -/
def percolate : Nat → Config → State → List Edge → Int → Option (List Sample × State)
  | 0, _, _, _, _ => none
  | fuel + 1, cfg, st, es, depth => do
    let N : Int := (cfg.order : Int) - (orderOfNetwork st st.parent : Int)
    let M := es.length
    let st1 := { st with networkIndex := st.networkIndex + 1 }
    let network := st1.networkIndex
    let p0 ← cfg.samples.get? 0
    if p0 = 0 then do
      let (s0, st2) ← sample fuel cfg st1 p0 es 0 N M depth network
      let (rest, st3) ← percolateLoop fuel cfg st2 es N M es 0 1 depth network
      return (s0 ++ rest, st3)
    else
      percolateLoop fuel cfg st1 es N M es 0 0 depth network

/-- The `for i in range(M)` loop of `ResidualBondPercolation.percolate`
(`extendednewmanziff.py` lines 171-187), with the early exit
`if samplePoint >= len(self._samples): break` at the top of each
iteration.  `esAll` is the whole edge list handed to this pass (needed
for `es[i+1:]` in `sample`), `rem` its unvisited suffix. -/
def percolateLoop : Nat → Config → State → List Edge → Int → Nat → List Edge →
    Nat → Nat → Int → Int → Option (List Sample × State)
  | 0, _, _, _, _, _, _, _, _, _, _ => none
  | fuel + 1, cfg, st, esAll, N, M, rem, i, sp, depth, network =>
    match rem with
    | [] => some ([], st)
    | (n, m) :: rest =>
      if sp ≥ cfg.samples.length then
        some ([], st)
      else do
        let (_, st1) ← occupy (st.components.length + 1) st n m network
        match cfg.samples.get? sp with
        | none => none
        | some p =>
          if ((i : ℚ) + 1) / (M : ℚ) ≥ p then do
            let (ss, st2) ← sample fuel cfg st1 p esAll (i + 1) N M depth network
            let (more, st3) ← percolateLoop fuel cfg st2 esAll N M rest (i + 1) (sp + 1)
              depth network
            return (ss ++ more, st3)
          else
            percolateLoop fuel cfg st1 esAll N M rest (i + 1) sp depth network

end

end ResidualBondPercolation

/-! ## Specification-side predicates -/

namespace BondPercolation

/-- The spec's forest invariant, for one slot: `Rooted comp n k` says that
following parent links from slot `n` reaches a root (a negative entry) in
exactly `k` steps, every link staying inside the array. -/
inductive Rooted (comp : List Int) : Nat → Nat → Prop
  | root (n : Nat) (v : Int) :
      comp.get? n = some v → v < 0 → Rooted comp n 0
  | step (n : Nat) (v : Int) (k : Nat) :
      comp.get? n = some v → 0 ≤ v → Rooted comp v.toNat k → Rooted comp n (k + 1)

end BondPercolation

namespace ResidualBondPercolation

/-- Frame predicate between two residual states: every slot whose
generation tag is at most `B` and whose component record is not the
singleton `-1` keeps its exact component record and generation tag.
Slots of a component of size ≥ 2 owned by a generation ≤ `B` are of this
shape (the root stores `-size ≤ -2`, interior slots store a parent index
≥ 0). -/
def Preserves (B : Int) (st st' : State) : Prop :=
  ∀ u tu cu, st.networks.get? u = some tu → st.components.get? u = some cu →
    tu ≤ B → cu ≠ -1 →
    st'.networks.get? u = some tu ∧ st'.components.get? u = some cu

/-- Frame statement for `percolate` at a given fuel: a pass whose parent
boundary and generation counter both dominate `B` preserves every
`B`-protected slot, restores nothing it should not, and moves the
generation counter and GCC only upward. -/
def PercolateFrame (fuel : Nat) : Prop :=
  ∀ (B : Int) cfg st es depth res st1,
    percolate fuel cfg st es depth = some (res, st1) →
    B ≤ st.parent → B ≤ st.networkIndex →
    Preserves B st st1 ∧ st1.parent = st.parent ∧
      st.networkIndex ≤ st1.networkIndex ∧ st.gcc ≤ st1.gcc

/-- Frame statement for the edge loop of `percolate`. -/
def LoopFrame (fuel : Nat) : Prop :=
  ∀ (B : Int) cfg st esAll N M rem i sp depth network res st1,
    percolateLoop fuel cfg st esAll N M rem i sp depth network = some (res, st1) →
    B ≤ st.parent → B < network → B ≤ st.networkIndex →
    Preserves B st st1 ∧ st1.parent = st.parent ∧
      st.networkIndex ≤ st1.networkIndex ∧ st.gcc ≤ st1.gcc

/-- Frame statement for `sample`: on top of the loop guarantees, the GCC
counter is exactly restored. -/
def SampleFrame (fuel : Nat) : Prop :=
  ∀ (B : Int) cfg st p es nexti N M depth network res st1,
    sample fuel cfg st p es nexti N M depth network = some (res, st1) →
    B < network → B ≤ st.networkIndex →
    Preserves B st st1 ∧ st1.parent = st.parent ∧
      st.networkIndex ≤ st1.networkIndex ∧ st1.gcc = st.gcc

/-- Frame statement for `repercolate`: the sub-pass spawned for
generation-boundary `network` preserves every slot protected at level
`B ≤ network` and restores the caller's GCC counter and parent
boundary. -/
def RepercolateFrame (fuel : Nat) : Prop :=
  ∀ (B : Int) cfg st p es depth network res st1,
    repercolate fuel cfg st p es depth network = some (res, st1) →
    B ≤ network → B ≤ st.networkIndex →
    Preserves B st st1 ∧ st1.parent = st.parent ∧
      st.networkIndex ≤ st1.networkIndex ∧ st1.gcc = st.gcc

/-- Two emitted records of the same generation must carry non-decreasing
GCC values (in emission order). -/
def SampleRel : Sample → Sample → Prop :=
  fun s t => s.network = t.network → s.gcc ≤ t.gcc

/-- Per-generation GCC monotonicity statement for `percolate`: every
emitted record belongs to a generation newer than the entry counter, and
records of one generation carry non-decreasing GCC values. -/
def PercolateMono (fuel : Nat) : Prop :=
  ∀ cfg st es depth res st1,
    percolate fuel cfg st es depth = some (res, st1) →
    (∀ s ∈ res, st.networkIndex < s.network ∧ s.network ≤ st1.networkIndex) ∧
      res.Pairwise SampleRel ∧ st.networkIndex ≤ st1.networkIndex ∧ st.gcc ≤ st1.gcc

/-- Per-generation GCC monotonicity statement for the edge loop. -/
def LoopMono (fuel : Nat) : Prop :=
  ∀ cfg st esAll (N : Int) (M : Nat) rem i sp depth network res st1,
    percolateLoop fuel cfg st esAll N M rem i sp depth network = some (res, st1) →
    network ≤ st.networkIndex →
    (∀ s ∈ res, (s.network = network ∧ st.gcc ≤ s.gcc) ∨
        (st.networkIndex < s.network ∧ s.network ≤ st1.networkIndex)) ∧
      res.Pairwise SampleRel ∧ st.networkIndex ≤ st1.networkIndex ∧ st.gcc ≤ st1.gcc

/-- Per-generation GCC monotonicity statement for `sample`. -/
def SampleMono (fuel : Nat) : Prop :=
  ∀ cfg st p es nexti (N : Int) (M : Nat) depth network res st1,
    sample fuel cfg st p es nexti N M depth network = some (res, st1) →
    network ≤ st.networkIndex →
    (∀ s ∈ res, (s.network = network ∧ s.gcc = st.gcc) ∨
        (st.networkIndex < s.network ∧ s.network ≤ st1.networkIndex)) ∧
      res.Pairwise SampleRel ∧ st.networkIndex ≤ st1.networkIndex ∧ st1.gcc = st.gcc

/-- Per-generation GCC monotonicity statement for `repercolate`. -/
def RepercolateMono (fuel : Nat) : Prop :=
  ∀ cfg st p es depth network res st1,
    repercolate fuel cfg st p es depth network = some (res, st1) →
    (∀ s ∈ res, st.networkIndex < s.network ∧ s.network ≤ st1.networkIndex) ∧
      res.Pairwise SampleRel ∧ st.networkIndex ≤ st1.networkIndex ∧ st1.gcc = st.gcc

end ResidualBondPercolation

/-! ## Claim C1: the concrete four-sample scenario -/

/-- C1, counterexample.  On the 4-node path with edge permutation
`[(0,1),(1,2),(2,3)]` and sample probabilities `{0.0, 0.34, 0.67, 1.0}`,
the basic driver does **not** emit the four claimed samples
`0.0↦1, 0.34↦2, 0.67↦3, 1.0↦4`. -/
theorem claim1_scenario_counterexample :
    (BondPercolation.percolate [0, 17/50, 67/100, 1] [(0, 1), (1, 2), (2, 3)]
        (BondPercolation.setUp 4)).map Prod.fst
      ≠ some [(0, 1), (17/50, 2), (67/100, 3), (1, 4)] := by
  with_unfolding_all decide

/-- C1, amended.  On that scenario the basic driver emits exactly three
samples: probability 0 with GCC 1, probability 0.34 with GCC 3 (two edges
are occupied by the time `(i+1)/M` first reaches 0.34), and probability
0.67 with GCC 4; the 1.0 threshold is never emitted because the loop
emits at most one pending threshold per edge index and the edge list ends
first. -/
theorem claim1_scenario_amended :
    BondPercolation.percolate [0, 17/50, 67/100, 1] [(0, 1), (1, 2), (2, 3)]
        (BondPercolation.setUp 4)
      = some ([(0, 1), (17/50, 3), (67/100, 4)], ⟨[-4, 0, 0, 0], 4⟩) := by
  with_unfolding_all decide

/-! ## Claim C2: setUp establishes singleton components and GCC 1 -/

/-- C2.  The intended initialization (the source reads an undefined `N`
and raises `NameError`; see `BondPercolation.setUp`) produces one entry
per node, every entry `-1`, and GCC 1. -/
theorem claim2_setUp_initializes (N : Nat) :
    (BondPercolation.setUp N).components.length = N ∧
    (∀ i, i < N → (BondPercolation.setUp N).components.getD i 0 = -1) ∧
    (BondPercolation.setUp N).gcc = 1 := by
  refine ⟨List.length_replicate _ _, fun i hi => ?_, rfl⟩
  simp [BondPercolation.setUp, List.getD_eq_getElem?_getD, List.getElem?_replicate, hi]

/-- C2, witness at the 4-node path, inspecting slot 2. -/
theorem claim2_setUp_initializes_witness :
    (BondPercolation.setUp 4).components.length = 4 ∧
    (BondPercolation.setUp 4).components.getD 2 0 = -1 ∧
    (BondPercolation.setUp 4).gcc = 1 :=
  ⟨(claim2_setUp_initializes 4).1, (claim2_setUp_initializes 4).2.1 2 (by decide),
    (claim2_setUp_initializes 4).2.2⟩

/-! ## Claim C3: one record per configured probability -/

/-- C3, counterexample.  On a single-edge network with configured
probabilities `{0.1, 0.2}`, both thresholds are satisfied at edge index 0
but only the first emits: the run produces one record, not one per
configured probability. -/
theorem claim3_one_record_counterexample :
    (BondPercolation.percolate [1/10, 1/5] [(0, 1)]
        (BondPercolation.setUp 2)).map (fun r => r.1.map Prod.fst)
      ≠ some [1/10, 1/5] := by
  with_unfolding_all decide

/-! ## Claim C4: loop exit and sample-list bounds -/

/-- C4.  With configured probabilities `{0.5}` on a 3-node path, the last
sample is emitted at edge index 0, but the loop continues (the break
guard at `newmanziff.py` line 141 tests `samplePoint > len` instead of
`>=`) and the next iteration reads `self._samples[1]` out of bounds: the
run faults instead of returning. -/
theorem claim4_overrun_fault :
    BondPercolation.percolate [1/2] [(0, 1), (1, 2)] (BondPercolation.setUp 3)
      = none := by
  with_unfolding_all decide

/-! ## Claim C5: scoping rule for ancestor-owned slots -/

/-- C5, counterexample.  A slot whose generation tag (1) is ≤ the current
parent boundary (1) — i.e. a slot owned by a live ancestor pass — but
whose component record is the singleton `-1` is **claimed** by
`rootOf`: the call returns the slot and re-tags it into the requesting
generation instead of returning nothing and leaving it unchanged. -/
theorem claim5_ancestor_singleton_counterexample :
    (ResidualBondPercolation.State.networks ⟨[-1], [1], 1, 1, 5, []⟩).getD 0 0
        ≤ (ResidualBondPercolation.State.parent ⟨[-1], [1], 1, 1, 5, []⟩) ∧
    ResidualBondPercolation.rootOf 2 ⟨[-1], [1], 1, 1, 5, []⟩ 0 2
      = some (some 0, ⟨[-1], [2], 1, 1, 5, []⟩) := by
  constructor
  · with_unfolding_all decide
  · with_unfolding_all decide

/-! ## Claim C6: occupy on an inaccessible endpoint -/

/-- C6, counterexample.  Occupying edge `(0, 1)` for generation 2 when
slot 1 is inaccessible (tag 1 ≤ parent boundary 1, record `-2`) returns
nothing, but it is **not** a no-op: resolving endpoint 0 first claimed
that slot, so the generation-tag array changes from `[1, 1]` to
`[2, 1]`. -/
theorem claim6_occupy_mutates_counterexample :
    (ResidualBondPercolation.occupy 3 ⟨[-1, -2], [1, 1], 7, 1, 0, []⟩ 0 1 2).map
        (fun r => (r.1, r.2.networks))
      = some (none, [2, 1]) ∧
    (ResidualBondPercolation.State.networks ⟨[-1, -2], [1, 1], 7, 1, 0, []⟩) = [1, 1] := by
  constructor
  · with_unfolding_all decide
  · rfl

/-! ## Basic-variant lemmas about rootOf -/

namespace BondPercolation

/-- Setting a list entry to the value it already holds changes nothing. -/
theorem set_of_get? : ∀ (l : List α) (i : Nat) (a : α), l.get? i = some a → l.set i a = l
  | [], i, a, h => by simp at h
  | b :: t, 0, a, h => by
    simp only [List.get?_cons_zero, Option.some.injEq] at h
    simp [List.set, h]
  | b :: t, i + 1, a, h => by
    simp only [List.get?_cons_succ] at h
    simp [List.set, set_of_get? t i a h]

theorem lt_length_of_get? {l : List α} {n : Nat} {a : α} (h : l.get? n = some a) :
    n < l.length := by
  obtain ⟨h1, -⟩ := List.get?_eq_some.mp h
  exact h1

theorem get?_total {l : List α} {n : Nat} (h : n < l.length) : ∃ a, l.get? n = some a := by
  cases hg : l.get? n with
  | none => exact absurd (List.get?_eq_none.mp hg) (by omega)
  | some a => exact ⟨a, rfl⟩

theorem rootOf_length : ∀ fuel comp n r c1,
    rootOf fuel comp n = some (r, c1) → c1.length = comp.length := by
  intro fuel
  induction fuel with
  | zero => intro comp n r c1 h; simp [rootOf] at h
  | succ f ih =>
    intro comp n r c1 h
    rw [rootOf] at h
    split at h
    · exact absurd h (by simp)
    next np hget =>
      split at h
      next hneg =>
        obtain ⟨h1, h2⟩ := Prod.mk.injEq .. ▸ Option.some.inj h
        exact h2 ▸ rfl
      next hneg =>
        split at h
        · exact absurd h (by simp)
        next r0 c0 hrec =>
          obtain ⟨h1, h2⟩ := Prod.mk.injEq .. ▸ Option.some.inj h
          rw [← h2, List.length_set]
          exact ih comp np.toNat r0 c0 hrec

/-- Path compression only writes non-negative values: every entry is
either untouched or now holds a (non-negative) slot index. -/
theorem rootOf_writes_nonneg : ∀ fuel comp n r c1,
    rootOf fuel comp n = some (r, c1) →
    ∀ m, c1.get? m = comp.get? m ∨ ∃ j : Nat, c1.get? m = some (Int.ofNat j) := by
  intro fuel
  induction fuel with
  | zero => intro comp n r c1 h; simp [rootOf] at h
  | succ f ih =>
    intro comp n r c1 h m
    rw [rootOf] at h
    split at h
    · exact absurd h (by simp)
    next np hget =>
      split at h
      next hneg =>
        obtain ⟨h1, h2⟩ := Prod.mk.injEq .. ▸ Option.some.inj h
        exact Or.inl (h2 ▸ rfl)
      next hneg =>
        split at h
        · exact absurd h (by simp)
        next r0 c0 hrec =>
          obtain ⟨h1, h2⟩ := Prod.mk.injEq .. ▸ Option.some.inj h
          subst h2
          by_cases hm : n = m
          · subst hm
            right
            refine ⟨r0, ?_⟩
            have hlen : c0.length = comp.length := rootOf_length f comp np.toNat r0 c0 hrec
            have hn : n < c0.length := by
              rw [hlen]
              exact lt_length_of_get? hget
            obtain ⟨w, hc0⟩ := get?_total hn
            rw [List.get?_set_eq, hc0]
            rfl
          · rw [List.get?_set_ne _ _ hm]
            exact ih comp np.toNat r0 c0 hrec m

/-- The returned slot is a root: its entry is negative, was already
negative before the call, and the call does not change it. -/
theorem rootOf_root : ∀ fuel comp n r c1,
    rootOf fuel comp n = some (r, c1) →
    ∃ v, comp.get? r = some v ∧ v < 0 ∧ c1.get? r = some v := by
  intro fuel
  induction fuel with
  | zero => intro comp n r c1 h; simp [rootOf] at h
  | succ f ih =>
    intro comp n r c1 h
    rw [rootOf] at h
    split at h
    · exact absurd h (by simp)
    next np hget =>
      split at h
      next hneg =>
        obtain ⟨h1, h2⟩ := Prod.mk.injEq .. ▸ Option.some.inj h
        exact ⟨np, h1 ▸ hget, hneg, h1 ▸ h2 ▸ hget⟩
      next hneg =>
        split at h
        · exact absurd h (by simp)
        next r0 c0 hrec =>
          obtain ⟨h1, h2⟩ := Prod.mk.injEq .. ▸ Option.some.inj h
          obtain ⟨v, hv1, hv2, hv3⟩ := ih comp np.toNat r0 c0 hrec
          have hnr : n ≠ r0 := by
            intro he
            rw [← he, hget] at hv1
            exact hneg (Option.some.inj hv1 ▸ hv2)
          refine ⟨v, h1 ▸ hv1, hv2, ?_⟩
          rw [← h2, ← h1, List.get?_set_ne _ _ hnr]
          exact hv3

/-- After a successful call on a non-root slot the slot points directly
at the returned root; on a root slot the array is untouched. -/
theorem rootOf_pointer : ∀ fuel comp n r c1,
    rootOf fuel comp n = some (r, c1) →
    (r = n ∧ c1 = comp) ∨ c1.get? n = some (Int.ofNat r) := by
  intro fuel
  induction fuel with
  | zero => intro comp n r c1 h; simp [rootOf] at h
  | succ f ih =>
    intro comp n r c1 h
    rw [rootOf] at h
    split at h
    · exact absurd h (by simp)
    next np hget =>
      split at h
      next hneg =>
        obtain ⟨h1, h2⟩ := Prod.mk.injEq .. ▸ Option.some.inj h
        exact Or.inl ⟨h1.symm, h2.symm⟩
      next hneg =>
        split at h
        · exact absurd h (by simp)
        next r0 c0 hrec =>
          obtain ⟨h1, h2⟩ := Prod.mk.injEq .. ▸ Option.some.inj h
          right
          have hlen : c0.length = comp.length := rootOf_length f comp np.toNat r0 c0 hrec
          have hn : n < c0.length := by
            rw [hlen]; exact lt_length_of_get? hget
          obtain ⟨w, hc0⟩ := get?_total hn
          rw [← h2, ← h1, List.get?_set_eq, hc0]
          rfl

/-- Under the forest precondition, `rootOf` succeeds whenever the fuel
exceeds the slot's depth. -/
theorem rootOf_isSome : ∀ {comp : List Int} {n k}, Rooted comp n k →
    ∀ {fuel}, k < fuel → ∃ r c1, rootOf fuel comp n = some (r, c1) := by
  intro comp n k hr
  induction hr with
  | root n v hget hneg =>
    intro fuel hf
    match fuel, hf with
    | f + 1, _ =>
      refine ⟨n, comp, ?_⟩
      have hget' : comp[n]? = some v := by rw [← List.get?_eq_getElem?]; exact hget
      simp [rootOf, hget', hneg]
  | step n v k hget hpos hrec ih =>
    intro fuel hf
    match fuel, hf with
    | f + 1, hf =>
      obtain ⟨r, c0, h0⟩ := ih (show k < f by omega)
      refine ⟨r, c0.set n (Int.ofNat r), ?_⟩
      have hget' : comp[n]? = some v := by rw [← List.get?_eq_getElem?]; exact hget
      simp [rootOf, hget', not_lt.mpr hpos, h0]

theorem get?_to_getElem? {l : List α} {n : Nat} {a : α} (h : l.get? n = some a) :
    l[n]? = some a := by
  rw [← List.get?_eq_getElem?]
  exact h

end BondPercolation

/-! ## Claim C8: rootOf terminates and returns a root -/

/-- C8.  Under the forest precondition (`Rooted comp n k`: parent links
from slot `n` reach a root in `k` steps), `rootOf` succeeds for every
fuel larger than `k` and returns a slot whose entry is negative — a
root. -/
theorem claim8_rootOf_terminates (comp : List Int) (n k fuel : Nat)
    (hr : BondPercolation.Rooted comp n k) (hf : k < fuel) :
    ∃ r c1, BondPercolation.rootOf fuel comp n = some (r, c1) ∧
      ∃ v, c1.get? r = some v ∧ v < 0 := by
  obtain ⟨r, c1, h⟩ := BondPercolation.rootOf_isSome hr hf
  obtain ⟨v, -, hv2, hv3⟩ := BondPercolation.rootOf_root fuel comp n r c1 h
  exact ⟨r, c1, h, v, hv3, hv2⟩

/-- C8, witness: the two-slot forest `[-2, 0]` where slot 1 points at
root 0. -/
theorem claim8_rootOf_terminates_witness :
    (BondPercolation.rootOf 2 [-2, 0] 1).isSome := by
  obtain ⟨r, c1, h, -⟩ := claim8_rootOf_terminates [-2, 0] 1 1 2
    (BondPercolation.Rooted.step 1 0 0 (by decide) (by decide)
      (BondPercolation.Rooted.root 0 (-2) (by decide) (by decide)))
    (by decide)
  rw [h]
  rfl

/-! ## Claim C9: rootOf is idempotent -/

/-- C9.  Under the forest precondition, a successful `rootOf` call
returns a root `r` and a compressed array `c1`, and running `rootOf`
again on the same slot over `c1` returns the same root and leaves `c1`
exactly as it is (the repeated write stores the value already there). -/
theorem claim9_rootOf_idempotent (comp : List Int) (n k fuel : Nat)
    (hr : BondPercolation.Rooted comp n k) (hf : k < fuel) :
    ∃ r c1, BondPercolation.rootOf fuel comp n = some (r, c1) ∧
      BondPercolation.rootOf fuel c1 n = some (r, c1) := by
  obtain ⟨r, c1, h⟩ := BondPercolation.rootOf_isSome hr hf
  refine ⟨r, c1, h, ?_⟩
  obtain ⟨v, hv1, hv2, hv3⟩ := BondPercolation.rootOf_root fuel comp n r c1 h
  rcases BondPercolation.rootOf_pointer fuel comp n r c1 h with ⟨he, hc⟩ | hp
  · subst he
    subst hc
    exact h
  · have hrn : r ≠ n := by
      intro he
      rw [he] at hv3 hp
      have hvn : v = Int.ofNat n := Option.some.inj (hv3.symm.trans hp)
      rw [Int.ofNat_eq_coe] at hvn
      omega
    match fuel, hf with
    | 1, hf =>
      exfalso
      rw [BondPercolation.rootOf] at h
      split at h
      · exact absurd h (by simp)
      next np hget =>
        split at h
        next hneg =>
          obtain ⟨h1, h2⟩ := Prod.mk.injEq .. ▸ Option.some.inj h
          exact hrn h1.symm
        next hneg =>
          simp [BondPercolation.rootOf] at h
    | f + 2, hf =>
      have hp' := BondPercolation.get?_to_getElem? hp
      have hv3' := BondPercolation.get?_to_getElem? hv3
      have hset : c1.set n ((r : Nat) : Int) = c1 := BondPercolation.set_of_get? c1 n _ hp
      simp [BondPercolation.rootOf, hp', hv3',
        not_lt.mpr (Int.ofNat_nonneg r), hv2, hset]

/-- C9, witness: on the two-slot forest `[-2, 0]` the compressed array
returned by the first call is `[-2, 0]` itself, and re-running `rootOf`
on it returns the same root 0 and the same array. -/
theorem claim9_rootOf_idempotent_witness :
    BondPercolation.rootOf 2 [-2, 0] 1 = some (0, [-2, 0]) := by
  obtain ⟨r, c1, h1, h2⟩ := claim9_rootOf_idempotent [-2, 0] 1 1 2
    (BondPercolation.Rooted.step 1 0 0 (by decide) (by decide)
      (BondPercolation.Rooted.root 0 (-2) (by decide) (by decide)))
    (by decide)
  have hc : BondPercolation.rootOf 2 [-2, 0] 1 = some (0, [-2, 0]) := by decide
  rw [h1] at hc
  obtain ⟨e1, e2⟩ := Prod.mk.injEq .. ▸ Option.some.inj hc
  rw [e1, e2] at h2
  exact h2

/-! ## Basic-variant lemmas about the percolation loop -/

namespace BondPercolation

/-- The GCC counter never decreases across `occupy`. -/
theorem occupy_gcc_mono : ∀ fuel st n m c st1,
    occupy fuel st n m = some (c, st1) → st.gcc ≤ st1.gcc := by
  intro fuel st n m c st1 h
  simp only [occupy] at h
  cases h1 : rootOf fuel st.components n with
  | none => rw [h1] at h; simp at h
  | some pr1 =>
    obtain ⟨nr, c1⟩ := pr1
    rw [h1] at h
    simp only [Option.bind_eq_bind, Option.some_bind] at h
    cases h2 : rootOf fuel c1 m with
    | none => rw [h2] at h; simp at h
    | some pr2 =>
      obtain ⟨mr, c2⟩ := pr2
      rw [h2] at h
      simp only [Option.bind_eq_bind, Option.some_bind] at h
      by_cases hne : mr ≠ nr
      · simp only [if_pos hne, join, Option.pure_def, Option.some.injEq,
          Prod.mk.injEq] at h
        obtain ⟨-, h4⟩ := h
        rw [← h4]
        exact le_max_left _ _
      · simp only [if_neg hne, Option.pure_def, Option.some.injEq, Prod.mk.injEq] at h
        obtain ⟨-, h4⟩ := h
        rw [← h4]

theorem chain'_cons_of_le {a b : Int} {l : List Int} (hab : a ≤ b)
    (h : List.Chain' (· ≤ ·) (b :: l)) : List.Chain' (· ≤ ·) (a :: l) := by
  cases l with
  | nil => simp
  | cons c t =>
    rw [List.chain'_cons] at h ⊢
    exact ⟨le_trans hab h.1, h.2⟩

/-- Along the loop, the GCC values of the emitted samples, prefixed with
the entry GCC, form a non-decreasing chain. -/
theorem percolateLoop_gcc_chain : ∀ (ss : List ℚ) (M : Nat) rem i sp st res st1,
    percolateLoop ss M rem i sp st = some (res, st1) →
    List.Chain' (· ≤ ·) (st.gcc :: res.map Prod.snd) := by
  intro ss M rem
  induction rem with
  | nil =>
    intro i sp st res st1 h
    simp only [percolateLoop, Option.some.injEq, Prod.mk.injEq] at h
    obtain ⟨h1, -⟩ := h
    rw [← h1]
    simp
  | cons e rest ih =>
    obtain ⟨n, m⟩ := e
    intro i sp st res st1 h
    cases h1 : occupy (st.components.length + 1) st n m with
    | none => simp [percolateLoop, h1] at h
    | some pr1 =>
      obtain ⟨c?, stA⟩ := pr1
      have hmono : st.gcc ≤ stA.gcc := occupy_gcc_mono _ _ _ _ _ _ h1
      cases hsp : ss.get? sp with
      | none =>
        simp only [percolateLoop, h1, hsp, Option.bind_eq_bind, Option.some_bind] at h
        exact absurd h (by simp)
      | some p =>
        simp only [percolateLoop, h1, hsp, Option.bind_eq_bind, Option.some_bind] at h
        split at h
        next hge =>
          split at h
          next hbrk =>
            simp only [Option.some.injEq, Prod.mk.injEq] at h
            obtain ⟨h2, -⟩ := h
            rw [← h2]
            simp only [List.map_cons, List.map_nil]
            exact List.chain'_pair.mpr hmono
          next hbrk =>
            cases hres : percolateLoop ss M rest (i + 1) (sp + 1) stA with
            | none => rw [hres] at h; simp at h
            | some pr2 =>
              obtain ⟨res2, stB⟩ := pr2
              rw [hres] at h
              simp only [Option.bind_eq_bind, Option.some_bind, Option.pure_def,
                Option.some.injEq, Prod.mk.injEq] at h
              obtain ⟨h2, -⟩ := h
              rw [← h2]
              simp only [List.map_cons]
              rw [List.chain'_cons]
              exact ⟨hmono, ih (i + 1) (sp + 1) stA res2 stB hres⟩
        next hge =>
          exact chain'_cons_of_le hmono (ih (i + 1) sp stA res st1 h)

/-- The probabilities of the samples emitted by the loop are an initial
segment of the not-yet-emitted configured probabilities. -/
theorem percolateLoop_probs : ∀ (ss : List ℚ) (M : Nat) rem i sp st res st1,
    percolateLoop ss M rem i sp st = some (res, st1) →
    ∃ j, res.map Prod.fst = (ss.drop sp).take j := by
  intro ss M rem
  induction rem with
  | nil =>
    intro i sp st res st1 h
    simp only [percolateLoop, Option.some.injEq, Prod.mk.injEq] at h
    obtain ⟨h1, -⟩ := h
    exact ⟨0, by rw [← h1]; simp⟩
  | cons e rest ih =>
    obtain ⟨n, m⟩ := e
    intro i sp st res st1 h
    cases h1 : occupy (st.components.length + 1) st n m with
    | none => simp [percolateLoop, h1] at h
    | some pr1 =>
      obtain ⟨c?, stA⟩ := pr1
      cases hsp : ss.get? sp with
      | none =>
        simp only [percolateLoop, h1, hsp, Option.bind_eq_bind, Option.some_bind] at h
        exact absurd h (by simp)
      | some p =>
        have hlt : sp < ss.length := lt_length_of_get? hsp
        have hdrop : ss.drop sp = p :: ss.drop (sp + 1) := by
          rw [List.drop_eq_getElem_cons hlt]
          have hg : ss[sp]? = some p := get?_to_getElem? hsp
          rw [List.getElem?_eq_getElem hlt] at hg
          rw [Option.some.inj hg]
        simp only [percolateLoop, h1, hsp, Option.bind_eq_bind, Option.some_bind] at h
        split at h
        next hge =>
          split at h
          next hbrk =>
            simp only [Option.some.injEq, Prod.mk.injEq] at h
            obtain ⟨h2, -⟩ := h
            refine ⟨1, ?_⟩
            rw [← h2, hdrop]
            simp
          next hbrk =>
            cases hres : percolateLoop ss M rest (i + 1) (sp + 1) stA with
            | none => rw [hres] at h; simp at h
            | some pr2 =>
              obtain ⟨res2, stB⟩ := pr2
              rw [hres] at h
              simp only [Option.bind_eq_bind, Option.some_bind, Option.pure_def,
                Option.some.injEq, Prod.mk.injEq] at h
              obtain ⟨h2, -⟩ := h
              obtain ⟨j, hj⟩ := ih (i + 1) (sp + 1) stA res2 stB hres
              refine ⟨j + 1, ?_⟩
              rw [← h2, hdrop]
              simp only [List.map_cons, List.take_succ_cons]
              rw [hj]
        next hge =>
          exact ih (i + 1) sp stA res st1 h

/-- Over a whole basic percolation run, the emitted GCC values are
non-decreasing. -/
theorem percolate_gcc_chain : ∀ (ss : List ℚ) (es : List Edge) st res st1,
    percolate ss es st = some (res, st1) →
    List.Chain' (· ≤ ·) (res.map Prod.snd) := by
  intro ss es st res st1 h
  simp only [percolate] at h
  cases h0 : ss.get? 0 with
  | none => rw [h0] at h; simp at h
  | some p0 =>
    rw [h0] at h
    simp only [Option.bind_eq_bind, Option.some_bind] at h
    split at h
    next hz =>
      cases hres : percolateLoop ss es.length es 0 1 st with
      | none => rw [hres] at h; simp at h
      | some pr =>
        obtain ⟨res2, stB⟩ := pr
        rw [hres] at h
        simp only [Option.bind_eq_bind, Option.some_bind, Option.pure_def,
          Option.some.injEq, Prod.mk.injEq] at h
        obtain ⟨h2, -⟩ := h
        rw [← h2]
        simp only [List.map_cons]
        exact percolateLoop_gcc_chain ss es.length es 0 1 st res2 stB hres
    next hz =>
      exact (percolateLoop_gcc_chain ss es.length es 0 0 st res st1 h).tail

/-- Over a whole basic percolation run, the emitted probabilities are an
initial segment of the configured (sorted) probability list: one record
each for the first `k` configured probabilities, in order. -/
theorem percolate_probs : ∀ (ss : List ℚ) (es : List Edge) st res st1,
    percolate ss es st = some (res, st1) →
    ∃ k, res.map Prod.fst = ss.take k := by
  intro ss es st res st1 h
  simp only [percolate] at h
  cases h0 : ss.get? 0 with
  | none => rw [h0] at h; simp at h
  | some p0 =>
    rw [h0] at h
    simp only [Option.bind_eq_bind, Option.some_bind] at h
    have hlt : 0 < ss.length := lt_length_of_get? h0
    have hcons : ss = p0 :: ss.drop 1 := by
      conv_lhs => rw [← List.drop_zero ss, List.drop_eq_getElem_cons hlt]
      have hg : ss[0]? = some p0 := get?_to_getElem? h0
      rw [List.getElem?_eq_getElem hlt] at hg
      rw [Option.some.inj hg]
    split at h
    next hz =>
      cases hres : percolateLoop ss es.length es 0 1 st with
      | none => rw [hres] at h; simp at h
      | some pr =>
        obtain ⟨res2, stB⟩ := pr
        rw [hres] at h
        simp only [Option.bind_eq_bind, Option.some_bind, Option.pure_def,
          Option.some.injEq, Prod.mk.injEq] at h
        obtain ⟨h2, -⟩ := h
        obtain ⟨j, hj⟩ := percolateLoop_probs ss es.length es 0 1 st res2 stB hres
        refine ⟨j + 1, ?_⟩
        rw [← h2]
        simp only [List.map_cons]
        conv_rhs => rw [hcons]
        rw [List.take_succ_cons, hj]
    next hz =>
      obtain ⟨j, hj⟩ := percolateLoop_probs ss es.length es 0 0 st res st1 h
      exact ⟨j, by rw [hj, List.drop_zero]⟩

end BondPercolation

/-! ## Claim C3, amended form -/

/-- C3, amended.  Whenever a basic percolation run returns, the emitted
records correspond, in order, to an initial segment of the configured
sorted probability list — at most one new threshold is emitted per edge
index, so later configured probabilities may be left without a record
(never duplicated, never reordered). -/
theorem claim3_emitted_initial_segment (ss : List ℚ) (es : List Edge)
    (st : BondPercolation.State) (res : List BondPercolation.Sample)
    (st1 : BondPercolation.State)
    (h : BondPercolation.percolate ss es st = some (res, st1)) :
    ∃ k, res.map Prod.fst = ss.take k :=
  BondPercolation.percolate_probs ss es st res st1 h

/-- C3 amended, witness: the 4-node path scenario emits records for
exactly the first three of the four configured probabilities. -/
theorem claim3_emitted_initial_segment_witness :
    ([((0 : ℚ), (1 : Int)), (17/50, 3), (67/100, 4)]).map Prod.fst
      = ([0, 17/50, 67/100, 1] : List ℚ).take 3 := by
  obtain ⟨k, hk⟩ := claim3_emitted_initial_segment [0, 17/50, 67/100, 1]
    [(0, 1), (1, 2), (2, 3)] (BondPercolation.setUp 4)
    [(0, 1), (17/50, 3), (67/100, 4)] ⟨[-4, 0, 0, 0], 4⟩
    (by with_unfolding_all decide)
  have hlen := congrArg List.length hk
  simp only [List.length_map, List.length_take, List.length_cons, List.length_nil] at hlen
  have hk3 : k = 3 := by omega
  rw [hk3] at hk
  exact hk

/-! ## Residual-variant lemmas about rootOf, join, occupy -/

theorem get?_set_self {l : List α} {i : Nat} {w : α} (hw : l.get? i = some w) (a : α) :
    (l.set i a).get? i = some a := by
  rw [List.get?_set_eq, hw]
  rfl

namespace ResidualBondPercolation

theorem preserves_refl (B : Int) (st : State) : Preserves B st st :=
  fun _ _ _ h1 h2 _ _ => ⟨h1, h2⟩

theorem preserves_trans {B : Int} {st1 st2 st3 : State}
    (ha : Preserves B st1 st2) (hb : Preserves B st2 st3) : Preserves B st1 st3 :=
  fun u tu cu h1 h2 h3 h4 =>
    have g := ha u tu cu h1 h2 h3 h4
    hb u tu cu g.1 g.2 h3 h4

/-- `rootOf` never touches the GCC counter, parent boundary, generation
counter or `phis`. -/
theorem rootOf_scalars : ∀ fuel st n network r? st1,
    rootOf fuel st n network = some (r?, st1) →
    st1.gcc = st.gcc ∧ st1.parent = st.parent ∧
      st1.networkIndex = st.networkIndex ∧ st1.phis = st.phis := by
  intro fuel
  induction fuel with
  | zero => intro st n network r? st1 h; simp [rootOf] at h
  | succ f ih =>
    intro st n network r? st1 h
    cases hnp : st.components.get? n with
    | none =>
      simp only [rootOf, hnp, Option.bind_eq_bind, Option.none_bind] at h
      exact absurd h (by simp)
    | some np =>
      cases hnn : st.networks.get? n with
      | none =>
        simp only [rootOf, hnp, hnn, Option.bind_eq_bind, Option.some_bind,
          Option.none_bind] at h
        exact absurd h (by simp)
      | some nn =>
        simp only [rootOf, hnp, hnn, Option.bind_eq_bind, Option.some_bind] at h
        split at h
        next h1 =>
          simp only [Option.pure_def, Option.some.injEq, Prod.mk.injEq] at h
          obtain ⟨-, h3⟩ := h
          rw [← h3]
          exact ⟨rfl, rfl, rfl, rfl⟩
        next h1 =>
          split at h
          next h2 =>
            split at h
            next h3 =>
              simp only [Option.pure_def, Option.some.injEq, Prod.mk.injEq] at h
              obtain ⟨-, h4⟩ := h
              rw [← h4]
              exact ⟨rfl, rfl, rfl, rfl⟩
            next h3 =>
              cases hrec : rootOf f st np.toNat network with
              | none => rw [hrec] at h; exact absurd h (by simp)
              | some pr =>
                obtain ⟨r0?, stR⟩ := pr
                rw [hrec] at h
                simp only [Option.bind_eq_bind, Option.some_bind] at h
                cases r0? with
                | none => exact absurd h (by simp)
                | some r0 =>
                  simp only [Option.pure_def, Option.some.injEq, Prod.mk.injEq] at h
                  obtain ⟨-, h4⟩ := h
                  rw [← h4]
                  exact ih st np.toNat network (some r0) stR hrec
          next h2 =>
            split at h
            next h3 =>
              simp only [Option.pure_def, Option.some.injEq, Prod.mk.injEq] at h
              obtain ⟨-, h4⟩ := h
              rw [← h4]
              exact ⟨rfl, rfl, rfl, rfl⟩
            next h3 =>
              simp only [Option.pure_def, Option.some.injEq, Prod.mk.injEq] at h
              obtain ⟨-, h4⟩ := h
              rw [← h4]
              exact ⟨rfl, rfl, rfl, rfl⟩

/-- Every generation tag the call changes is set to `network`. -/
theorem rootOf_tags : ∀ fuel st n network r? st1,
    rootOf fuel st n network = some (r?, st1) →
    ∀ u, st1.networks.get? u = st.networks.get? u ∨
      st1.networks.get? u = some network := by
  intro fuel
  induction fuel with
  | zero => intro st n network r? st1 h; simp [rootOf] at h
  | succ f ih =>
    intro st n network r? st1 h u
    cases hnp : st.components.get? n with
    | none =>
      simp only [rootOf, hnp, Option.bind_eq_bind, Option.none_bind] at h
      exact absurd h (by simp)
    | some np =>
      cases hnn : st.networks.get? n with
      | none =>
        simp only [rootOf, hnp, hnn, Option.bind_eq_bind, Option.some_bind,
          Option.none_bind] at h
        exact absurd h (by simp)
      | some nn =>
        simp only [rootOf, hnp, hnn, Option.bind_eq_bind, Option.some_bind] at h
        split at h
        next h1 =>
          simp only [Option.pure_def, Option.some.injEq, Prod.mk.injEq] at h
          obtain ⟨-, h3⟩ := h
          rw [← h3]
          by_cases hu : n = u
          · subst hu
            exact Or.inr (get?_set_self hnn network)
          · exact Or.inl (List.get?_set_ne _ _ hu)
        next h1 =>
          split at h
          next h2 =>
            split at h
            next h3 =>
              simp only [Option.pure_def, Option.some.injEq, Prod.mk.injEq] at h
              obtain ⟨-, h4⟩ := h
              rw [← h4]
              exact Or.inl rfl
            next h3 =>
              cases hrec : rootOf f st np.toNat network with
              | none => rw [hrec] at h; exact absurd h (by simp)
              | some pr =>
                obtain ⟨r0?, stR⟩ := pr
                rw [hrec] at h
                simp only [Option.bind_eq_bind, Option.some_bind] at h
                cases r0? with
                | none => exact absurd h (by simp)
                | some r0 =>
                  simp only [Option.pure_def, Option.some.injEq, Prod.mk.injEq] at h
                  obtain ⟨-, h4⟩ := h
                  rw [← h4]
                  exact ih st np.toNat network (some r0) stR hrec u
          next h2 =>
            split at h
            next h3 =>
              simp only [Option.pure_def, Option.some.injEq, Prod.mk.injEq] at h
              obtain ⟨-, h4⟩ := h
              rw [← h4]
              by_cases hu : n = u
              · subst hu
                exact Or.inr (get?_set_self hnn network)
              · exact Or.inl (List.get?_set_ne _ _ hu)
            next h3 =>
              simp only [Option.pure_def, Option.some.injEq, Prod.mk.injEq] at h
              obtain ⟨-, h4⟩ := h
              rw [← h4]
              exact Or.inl rfl

/-- A slot returned as accessible is tagged with the requesting
generation. -/
theorem rootOf_root_tag : ∀ fuel st n network r st1,
    rootOf fuel st n network = some (some r, st1) →
    st1.networks.get? r = some network := by
  intro fuel
  induction fuel with
  | zero => intro st n network r st1 h; simp [rootOf] at h
  | succ f ih =>
    intro st n network r st1 h
    cases hnp : st.components.get? n with
    | none =>
      simp only [rootOf, hnp, Option.bind_eq_bind, Option.none_bind] at h
      exact absurd h (by simp)
    | some np =>
      cases hnn : st.networks.get? n with
      | none =>
        simp only [rootOf, hnp, hnn, Option.bind_eq_bind, Option.some_bind,
          Option.none_bind] at h
        exact absurd h (by simp)
      | some nn =>
        simp only [rootOf, hnp, hnn, Option.bind_eq_bind, Option.some_bind] at h
        split at h
        next h1 =>
          simp only [Option.pure_def, Option.some.injEq, Prod.mk.injEq,
            Option.some.injEq] at h
          obtain ⟨h2, h3⟩ := h
          rw [← h3, ← h2]
          exact get?_set_self hnn network
        next h1 =>
          split at h
          next h2 =>
            split at h
            next h3 =>
              simp only [Option.pure_def, Option.some.injEq, Prod.mk.injEq,
                Option.some.injEq] at h
              obtain ⟨h4, h5⟩ := h
              rw [← h5, ← h4, hnn, h2]
            next h3 =>
              cases hrec : rootOf f st np.toNat network with
              | none => rw [hrec] at h; exact absurd h (by simp)
              | some pr =>
                obtain ⟨r0?, stR⟩ := pr
                rw [hrec] at h
                simp only [Option.bind_eq_bind, Option.some_bind] at h
                cases r0? with
                | none => exact absurd h (by simp)
                | some r0 =>
                  simp only [Option.pure_def, Option.some.injEq, Prod.mk.injEq,
                    Option.some.injEq] at h
                  obtain ⟨h4, h5⟩ := h
                  rw [← h5, ← h4]
                  exact ih st np.toNat network r0 stR hrec
          next h2 =>
            split at h
            next h3 =>
              simp only [Option.pure_def, Option.some.injEq, Prod.mk.injEq,
                Option.some.injEq] at h
              obtain ⟨h4, h5⟩ := h
              rw [← h5, ← h4]
              exact get?_set_self hnn network
            next h3 =>
              exact absurd h (by simp)

/-- `rootOf` running for a generation above the protection level leaves
every protected slot untouched. -/
theorem rootOf_preserves : ∀ fuel (B : Int) st n network r? st1,
    B ≤ st.parent → B < network →
    rootOf fuel st n network = some (r?, st1) →
    Preserves B st st1 := by
  intro fuel
  induction fuel with
  | zero => intro B st n network r? st1 hB hBn h; simp [rootOf] at h
  | succ f ih =>
    intro B st n network r? st1 hB hBn h
    cases hnp : st.components.get? n with
    | none =>
      simp only [rootOf, hnp, Option.bind_eq_bind, Option.none_bind] at h
      exact absurd h (by simp)
    | some np =>
      cases hnn : st.networks.get? n with
      | none =>
        simp only [rootOf, hnp, hnn, Option.bind_eq_bind, Option.some_bind,
          Option.none_bind] at h
        exact absurd h (by simp)
      | some nn =>
        simp only [rootOf, hnp, hnn, Option.bind_eq_bind, Option.some_bind] at h
        split at h
        next h1 =>
          simp only [Option.pure_def, Option.some.injEq, Prod.mk.injEq] at h
          obtain ⟨-, h3⟩ := h
          rw [← h3]
          intro u tu cu hu1 hu2 htu hcu
          have hun : n ≠ u := by
            intro he
            rw [← he, hnp] at hu2
            have hc : np = cu := Option.some.inj hu2
            rw [h1] at hc
            exact hcu hc.symm
          exact ⟨by rw [List.get?_set_ne _ _ hun]; exact hu1, hu2⟩
        next h1 =>
          split at h
          next h2 =>
            split at h
            next h3 =>
              simp only [Option.pure_def, Option.some.injEq, Prod.mk.injEq] at h
              obtain ⟨-, h4⟩ := h
              rw [← h4]
              exact preserves_refl B st
            next h3 =>
              cases hrec : rootOf f st np.toNat network with
              | none => rw [hrec] at h; exact absurd h (by simp)
              | some pr =>
                obtain ⟨r0?, stR⟩ := pr
                rw [hrec] at h
                simp only [Option.bind_eq_bind, Option.some_bind] at h
                cases r0? with
                | none => exact absurd h (by simp)
                | some r0 =>
                  simp only [Option.pure_def, Option.some.injEq, Prod.mk.injEq] at h
                  obtain ⟨-, h4⟩ := h
                  rw [← h4]
                  have hpres : Preserves B st stR :=
                    ih B st np.toNat network (some r0) stR hB hBn hrec
                  intro u tu cu hu1 hu2 htu hcu
                  obtain ⟨g1, g2⟩ := hpres u tu cu hu1 hu2 htu hcu
                  have hun : n ≠ u := by
                    intro he
                    rw [← he, hnn] at hu1
                    have : nn = tu := Option.some.inj hu1
                    omega
                  exact ⟨g1, by rw [List.get?_set_ne _ _ hun]; exact g2⟩
          next h2 =>
            split at h
            next h3 =>
              simp only [Option.pure_def, Option.some.injEq, Prod.mk.injEq] at h
              obtain ⟨-, h4⟩ := h
              rw [← h4]
              intro u tu cu hu1 hu2 htu hcu
              have hun : n ≠ u := by
                intro he
                rw [← he, hnn] at hu1
                have : nn = tu := Option.some.inj hu1
                omega
              exact ⟨by rw [List.get?_set_ne _ _ hun]; exact hu1,
                by rw [List.get?_set_ne _ _ hun]; exact hu2⟩
            next h3 =>
              simp only [Option.pure_def, Option.some.injEq, Prod.mk.injEq] at h
              obtain ⟨-, h4⟩ := h
              rw [← h4]
              exact preserves_refl B st

theorem join_networks (st : State) (c1 c2 : Node) :
    (join st c1 c2).2.networks = st.networks := rfl

theorem join_parent (st : State) (c1 c2 : Node) :
    (join st c1 c2).2.parent = st.parent := rfl

theorem join_networkIndex (st : State) (c1 c2 : Node) :
    (join st c1 c2).2.networkIndex = st.networkIndex := rfl

theorem join_phis (st : State) (c1 c2 : Node) :
    (join st c1 c2).2.phis = st.phis := rfl

theorem join_gcc_mono (st : State) (c1 c2 : Node) :
    st.gcc ≤ (join st c1 c2).2.gcc :=
  le_max_left _ _

/-- `join` only writes the two slots handed to it; when those are tagged
with a generation above the protection level, protected slots are
untouched. -/
theorem join_preserves {B network : Int} {st : State} {c1 c2 : Node}
    (h1 : st.networks.get? c1 = some network) (h2 : st.networks.get? c2 = some network)
    (hBn : B < network) : Preserves B st (join st c1 c2).2 := by
  intro u tu cu hu1 hu2 htu hcu
  have hu1' : u ≠ c1 := by
    intro he
    rw [he, h1] at hu1
    have : network = tu := Option.some.inj hu1
    omega
  have hu2' : u ≠ c2 := by
    intro he
    rw [he, h2] at hu1
    have : network = tu := Option.some.inj hu1
    omega
  refine ⟨hu1, ?_⟩
  show ((st.components.set c2 _).set c1 _).get? u = some cu
  rw [List.get?_set_ne _ _ (Ne.symm hu1'), List.get?_set_ne _ _ (Ne.symm hu2')]
  exact hu2

/-- Frame facts for `occupy`: protected slots are untouched, the scalar
bookkeeping fields are unchanged, and the GCC counter never decreases. -/
theorem occupy_frame : ∀ fuel (B : Int) st n m network c? st2,
    B ≤ st.parent → B < network →
    occupy fuel st n m network = some (c?, st2) →
    Preserves B st st2 ∧ st2.parent = st.parent ∧
      st2.networkIndex = st.networkIndex ∧ st2.phis = st.phis ∧ st.gcc ≤ st2.gcc := by
  intro fuel B st n m network c? st2 hB hBn h
  simp only [occupy] at h
  cases h1 : rootOf fuel st n network with
  | none => rw [h1] at h; simp at h
  | some pr1 =>
    obtain ⟨nr?, stA⟩ := pr1
    rw [h1] at h
    simp only [Option.bind_eq_bind, Option.some_bind] at h
    cases h2 : rootOf fuel stA m network with
    | none => rw [h2] at h; simp at h
    | some pr2 =>
      obtain ⟨mr?, stB⟩ := pr2
      rw [h2] at h
      simp only [Option.bind_eq_bind, Option.some_bind] at h
      obtain ⟨sA1, sA2, sA3, sA4⟩ := rootOf_scalars fuel st n network nr? stA h1
      obtain ⟨sB1, sB2, sB3, sB4⟩ := rootOf_scalars fuel stA m network mr? stB h2
      have hpresA : Preserves B st stA := rootOf_preserves fuel B st n network nr? stA hB hBn h1
      have hpresB : Preserves B stA stB :=
        rootOf_preserves fuel B stA m network mr? stB (by omega) hBn h2
      have hpresAB : Preserves B st stB := preserves_trans hpresA hpresB
      split at h
      next nr mr =>
        split at h
        next hne =>
          simp only [Option.pure_def, Option.some.injEq, Prod.mk.injEq] at h
          obtain ⟨-, h4⟩ := h
          have htagA : stA.networks.get? nr = some network :=
            rootOf_root_tag fuel st n network nr stA h1
          have htagB : stB.networks.get? nr = some network := by
            rcases rootOf_tags fuel stA m network (some mr) stB h2 nr with hc | hc
            · rw [hc]; exact htagA
            · exact hc
          have htagB2 : stB.networks.get? mr = some network :=
            rootOf_root_tag fuel stA m network mr stB h2
          have hpresJ : Preserves B stB (join stB nr mr).2 :=
            join_preserves htagB htagB2 hBn
          rw [← h4]
          refine ⟨preserves_trans hpresAB hpresJ, ?_, ?_, ?_, ?_⟩
          · rw [join_parent]; omega
          · rw [join_networkIndex]; omega
          · rw [join_phis]; exact sB4.trans sA4
          · have := join_gcc_mono stB nr mr
            omega
        next hne =>
          simp only [Option.pure_def, Option.some.injEq, Prod.mk.injEq] at h
          obtain ⟨-, h4⟩ := h
          rw [← h4]
          exact ⟨hpresAB, by omega, by omega, sB4.trans sA4, by omega⟩
      next x y hxy =>
        simp only [Option.pure_def, Option.some.injEq, Prod.mk.injEq] at h
        obtain ⟨-, h4⟩ := h
        rw [← h4]
        exact ⟨hpresAB, by omega, by omega, sB4.trans sA4, by omega⟩

/-- Scalar bookkeeping facts for `occupy` needing no protection level:
parent, generation counter and `phis` are unchanged and the GCC counter
never decreases. -/
theorem occupy_scalars : ∀ fuel st n m network c? st2,
    occupy fuel st n m network = some (c?, st2) →
    st2.parent = st.parent ∧ st2.networkIndex = st.networkIndex ∧
      st2.phis = st.phis ∧ st.gcc ≤ st2.gcc := by
  intro fuel st n m network c? st2 h
  simp only [occupy] at h
  cases h1 : rootOf fuel st n network with
  | none => rw [h1] at h; simp at h
  | some pr1 =>
    obtain ⟨nr?, stA⟩ := pr1
    rw [h1] at h
    simp only [Option.bind_eq_bind, Option.some_bind] at h
    cases h2 : rootOf fuel stA m network with
    | none => rw [h2] at h; simp at h
    | some pr2 =>
      obtain ⟨mr?, stB⟩ := pr2
      rw [h2] at h
      simp only [Option.bind_eq_bind, Option.some_bind] at h
      obtain ⟨sA1, sA2, sA3, sA4⟩ := rootOf_scalars fuel st n network nr? stA h1
      obtain ⟨sB1, sB2, sB3, sB4⟩ := rootOf_scalars fuel stA m network mr? stB h2
      split at h
      next nr mr =>
        split at h
        next hne =>
          simp only [Option.pure_def, Option.some.injEq, Prod.mk.injEq] at h
          obtain ⟨-, h4⟩ := h
          rw [← h4]
          refine ⟨?_, ?_, ?_, ?_⟩
          · rw [join_parent]; omega
          · rw [join_networkIndex]; omega
          · rw [join_phis]; exact sB4.trans sA4
          · have := join_gcc_mono stB nr mr
            omega
        next hne =>
          simp only [Option.pure_def, Option.some.injEq, Prod.mk.injEq] at h
          obtain ⟨-, h4⟩ := h
          rw [← h4]
          exact ⟨by omega, by omega, sB4.trans sA4, by omega⟩
      next x y hxy =>
        simp only [Option.pure_def, Option.some.injEq, Prod.mk.injEq] at h
        obtain ⟨-, h4⟩ := h
        rw [← h4]
        exact ⟨by omega, by omega, sB4.trans sA4, by omega⟩

/-- The four frame statements hold at every fuel, by simultaneous
induction on the fuel: every slot protected at a level dominated by the
pass's parent boundary and generation counter is untouched, parent
boundaries are restored, the generation counter only grows, and
`sample`/`repercolate` restore the GCC counter exactly. -/
theorem residual_frame : ∀ fuel, PercolateFrame fuel ∧ LoopFrame fuel ∧
    SampleFrame fuel ∧ RepercolateFrame fuel := by
  intro fuel
  induction fuel with
  | zero =>
    refine ⟨?_, ?_, ?_, ?_⟩
    · intro B cfg st es depth res st1 h
      simp [percolate] at h
    · intro B cfg st esAll N M rem i sp depth network res st1 h
      simp [percolateLoop] at h
    · intro B cfg st p es nexti N M depth network res st1 h
      simp [sample] at h
    · intro B cfg st p es depth network res st1 h
      simp [repercolate] at h
  | succ f ih =>
    obtain ⟨ihP, ihL, ihS, ihR⟩ := ih
    refine ⟨?_, ?_, ?_, ?_⟩
    · -- percolate
      intro B cfg st es depth res st1 h hB hBidx
      simp only [percolate, Option.bind_eq_bind] at h
      rw [Option.bind_eq_some] at h
      obtain ⟨p0, h0, h⟩ := h
      try dsimp only at h
      split at h
      next hz =>
        rw [Option.bind_eq_some] at h
        obtain ⟨⟨s0, st2⟩, hS, h⟩ := h
        try dsimp only at h
        rw [Option.bind_eq_some] at h
        obtain ⟨⟨rest, st3⟩, hL, h⟩ := h
        try dsimp only at h
        simp only [Option.pure_def, Option.some.injEq, Prod.mk.injEq] at h
        obtain ⟨-, hst1⟩ := h
        have HS := ihS B cfg _ p0 es 0 _ _ depth _ s0 st2 hS (by (try dsimp only); omega)
          (by (try dsimp only); omega)
        obtain ⟨Sp, Spar, Sidx, Sgcc⟩ := HS
        have HL := ihL B cfg st2 es _ _ es 0 1 depth _ rest st3 hL
          (by (try dsimp only at Spar ⊢); omega) (by omega)
          (by (try dsimp only at Sidx ⊢); omega)
        obtain ⟨Lp, Lpar, Lidx, Lgcc⟩ := HL
        have pre0 : Preserves B st { st with networkIndex := st.networkIndex + 1 } :=
          fun u tu cu h1 h2 _ _ => ⟨h1, h2⟩
        refine ⟨?_, ?_, ?_, ?_⟩
        · rw [← hst1]
          exact preserves_trans pre0 (preserves_trans Sp Lp)
        · rw [← hst1]
          try dsimp only at Spar
          omega
        · rw [← hst1]
          try dsimp only at Sidx
          omega
        · rw [← hst1]
          try dsimp only at Sgcc
          omega
      next hz =>
        have HL := ihL B cfg _ es _ _ es 0 0 depth _ res st1 h
          (by (try dsimp only); omega) (by (try dsimp only); omega) (by (try dsimp only); omega)
        obtain ⟨Lp, Lpar, Lidx, Lgcc⟩ := HL
        have pre0 : Preserves B st { st with networkIndex := st.networkIndex + 1 } :=
          fun u tu cu h1 h2 _ _ => ⟨h1, h2⟩
        refine ⟨preserves_trans pre0 Lp, ?_, ?_, ?_⟩
        · try dsimp only at Lpar
          omega
        · try dsimp only at Lidx
          omega
        · try dsimp only at Lgcc
          omega
    · -- percolateLoop
      intro B cfg st esAll N M rem i sp depth network res st1 h hB hBn hBidx
      cases rem with
      | nil =>
        simp only [percolateLoop, Option.some.injEq, Prod.mk.injEq] at h
        obtain ⟨-, hst1⟩ := h
        rw [← hst1]
        exact ⟨preserves_refl B st, rfl, le_refl _, le_refl _⟩
      | cons e rest =>
        obtain ⟨n, m⟩ := e
        simp only [percolateLoop, Option.bind_eq_bind] at h
        split at h
        next hsp =>
          simp only [Option.some.injEq, Prod.mk.injEq] at h
          obtain ⟨-, hst1⟩ := h
          rw [← hst1]
          exact ⟨preserves_refl B st, rfl, le_refl _, le_refl _⟩
        next hsp =>
          rw [Option.bind_eq_some] at h
          obtain ⟨⟨c?, stA⟩, hOcc, h⟩ := h
          try dsimp only at h
          obtain ⟨Op, Opar, Oidx, Ophis, Ogcc⟩ :=
            occupy_frame _ B st n m network c? stA hB hBn hOcc
          cases hq : cfg.samples.get? sp with
          | none =>
            simp only [hq] at h
            exact absurd h (by simp)
          | some p =>
            simp only [hq] at h
            split at h
            next hge =>
              rw [Option.bind_eq_some] at h
              obtain ⟨⟨ss, st2⟩, hS, h⟩ := h
              try dsimp only at h
              rw [Option.bind_eq_some] at h
              obtain ⟨⟨more, st3⟩, hL, h⟩ := h
              try dsimp only at h
              simp only [Option.pure_def, Option.some.injEq, Prod.mk.injEq] at h
              obtain ⟨-, hst1⟩ := h
              obtain ⟨Sp, Spar, Sidx, Sgcc⟩ :=
                ihS B cfg stA p esAll (i + 1) N M depth network ss st2 hS hBn (by omega)
              obtain ⟨Lp, Lpar, Lidx, Lgcc⟩ :=
                ihL B cfg st2 esAll N M rest (i + 1) (sp + 1) depth network more st3 hL
                  (by omega) hBn (by omega)
              refine ⟨?_, ?_, ?_, ?_⟩
              · rw [← hst1]
                exact preserves_trans Op (preserves_trans Sp Lp)
              · rw [← hst1]; omega
              · rw [← hst1]; omega
              · rw [← hst1]; omega
            next hge =>
              obtain ⟨Lp, Lpar, Lidx, Lgcc⟩ :=
                ihL B cfg stA esAll N M rest (i + 1) sp depth network res st1 h
                  (by omega) hBn (by omega)
              refine ⟨preserves_trans Op Lp, by omega, by omega, by omega⟩
    · -- sample
      intro B cfg st p es nexti N M depth network res st1 h hBn hBidx
      simp only [sample] at h
      split at h
      next hd =>
        rw [Option.bind_eq_bind, Option.bind_eq_some] at h
        obtain ⟨⟨more, stR⟩, hR, h⟩ := h
        try dsimp only at h
        simp only [Option.pure_def, Option.some.injEq, Prod.mk.injEq] at h
        obtain ⟨-, hst1⟩ := h
        obtain ⟨Rp, Rpar, Ridx, Rgcc⟩ :=
          ihR B cfg st p (es.drop nexti) depth network more stR hR (by omega) hBidx
        rw [← hst1]
        exact ⟨Rp, Rpar, Ridx, Rgcc⟩
      next hd =>
        simp only [Option.some.injEq, Prod.mk.injEq] at h
        obtain ⟨-, hst1⟩ := h
        rw [← hst1]
        exact ⟨preserves_refl B st, rfl, le_refl _, rfl⟩
    · -- repercolate
      intro B cfg st p es depth network res st1 h hBn hBidx
      simp only [repercolate, Option.bind_eq_bind] at h
      rw [Option.bind_eq_some] at h
      obtain ⟨⟨ss, st2⟩, hP, h⟩ := h
      try dsimp only at h
      simp only [Option.pure_def, Option.some.injEq, Prod.mk.injEq] at h
      obtain ⟨-, hst1⟩ := h
      obtain ⟨Pp, Ppar, Pidx, Pgcc⟩ :=
        ihP B cfg _ es (depth + 1) ss st2 hP (by (try dsimp only); omega) (by (try dsimp only); omega)
      have pre0 : Preserves B st
          { st with phis := phisSet st.phis depth p, parent := network, gcc := 1 } :=
        fun u tu cu h1 h2 _ _ => ⟨h1, h2⟩
      have pre2 : Preserves B st2
          { st2 with phis := phisDel st2.phis depth, gcc := st.gcc, parent := st.parent } :=
        fun u tu cu h1 h2 _ _ => ⟨h1, h2⟩
      refine ⟨?_, ?_, ?_, ?_⟩
      · rw [← hst1]
        exact preserves_trans pre0 (preserves_trans Pp pre2)
      · rw [← hst1]
      · rw [← hst1]
        try dsimp only at Pidx ⊢
        omega
      · rw [← hst1]

/-- The four per-generation GCC monotonicity statements hold at every
fuel, by simultaneous induction on the fuel: every emitted record is
tagged with a generation allocated during the call, generations of
different (sub-)passes never collide, a pass's own records carry its own
monotonically growing GCC counter, and nested passes restore it. -/
theorem residual_mono : ∀ fuel, PercolateMono fuel ∧ LoopMono fuel ∧
    SampleMono fuel ∧ RepercolateMono fuel := by
  intro fuel
  induction fuel with
  | zero =>
    refine ⟨?_, ?_, ?_, ?_⟩
    · intro cfg st es depth res st1 h
      simp [percolate] at h
    · intro cfg st esAll N M rem i sp depth network res st1 h
      simp [percolateLoop] at h
    · intro cfg st p es nexti N M depth network res st1 h
      simp [sample] at h
    · intro cfg st p es depth network res st1 h
      simp [repercolate] at h
  | succ f ih =>
    obtain ⟨ihP, ihL, ihS, ihR⟩ := ih
    refine ⟨?_, ?_, ?_, ?_⟩
    · -- percolate
      intro cfg st es depth res st1 h
      simp only [percolate, Option.bind_eq_bind] at h
      rw [Option.bind_eq_some] at h
      obtain ⟨p0, h0, h⟩ := h
      try dsimp only at h
      split at h
      next hz =>
        rw [Option.bind_eq_some] at h
        obtain ⟨⟨s0, st2⟩, hS, h⟩ := h
        try dsimp only at h
        rw [Option.bind_eq_some] at h
        obtain ⟨⟨rest, st3⟩, hL, h⟩ := h
        try dsimp only at h
        simp only [Option.pure_def, Option.some.injEq, Prod.mk.injEq] at h
        obtain ⟨hres, hst1⟩ := h
        obtain ⟨memS, pwS, idxS, gccS⟩ :=
          ihS cfg _ p0 es 0 _ _ depth _ s0 st2 hS (by (try dsimp only); omega)
        obtain ⟨memL, pwL, idxL, gccL⟩ :=
          ihL cfg st2 es _ _ es 0 1 depth _ rest st3 hL
            (by (try dsimp only at idxS ⊢); omega)
        try dsimp only at memS idxS gccS
        refine ⟨?_, ?_, ?_, ?_⟩
        · intro s hs
          rw [← hres] at hs
          rw [← hst1]
          rcases List.mem_append.mp hs with hs0 | hsl
          · rcases memS s hs0 with ⟨hnet, -⟩ | ⟨hlo, hhi⟩
            · constructor <;> omega
            · constructor <;> omega
          · rcases memL s hsl with ⟨hnet, -⟩ | ⟨hlo, hhi⟩
            · constructor <;> omega
            · constructor <;> omega
        · rw [← hres]
          rw [List.pairwise_append]
          refine ⟨pwS, pwL, ?_⟩
          intro s hs0 t htl heq
          rcases memS s hs0 with ⟨hnet, hgcc⟩ | ⟨hlo, hhi⟩ <;>
            rcases memL t htl with ⟨hnet2, hgcc2⟩ | ⟨hlo2, hhi2⟩ <;> omega
        · rw [← hst1]
          omega
        · rw [← hst1]
          omega
      next hz =>
        obtain ⟨memL, pwL, idxL, gccL⟩ :=
          ihL cfg _ es _ _ es 0 0 depth _ res st1 h (by (try dsimp only); omega)
        try dsimp only at memL idxL gccL
        refine ⟨?_, pwL, by omega, by omega⟩
        intro s hs
        rcases memL s hs with ⟨hnet, -⟩ | ⟨hlo, hhi⟩
        · constructor <;> omega
        · constructor <;> omega
    · -- percolateLoop
      intro cfg st esAll N M rem i sp depth network res st1 h hn
      cases rem with
      | nil =>
        simp only [percolateLoop, Option.some.injEq, Prod.mk.injEq] at h
        obtain ⟨hres, hst1⟩ := h
        rw [← hres, ← hst1]
        exact ⟨by simp, List.Pairwise.nil, le_refl _, le_refl _⟩
      | cons e rest =>
        obtain ⟨n, m⟩ := e
        simp only [percolateLoop, Option.bind_eq_bind] at h
        split at h
        next hsp =>
          simp only [Option.some.injEq, Prod.mk.injEq] at h
          obtain ⟨hres, hst1⟩ := h
          rw [← hres, ← hst1]
          exact ⟨by simp, List.Pairwise.nil, le_refl _, le_refl _⟩
        next hsp =>
          rw [Option.bind_eq_some] at h
          obtain ⟨⟨c?, stA⟩, hOcc, h⟩ := h
          try dsimp only at h
          obtain ⟨Opar, Oidx, Ophis, Ogcc⟩ :=
            occupy_scalars _ st n m network c? stA hOcc
          cases hq : cfg.samples.get? sp with
          | none =>
            simp only [hq] at h
            exact absurd h (by simp)
          | some p =>
            simp only [hq] at h
            split at h
            next hge =>
              rw [Option.bind_eq_some] at h
              obtain ⟨⟨ss, st2⟩, hS, h⟩ := h
              try dsimp only at h
              rw [Option.bind_eq_some] at h
              obtain ⟨⟨more, st3⟩, hL, h⟩ := h
              try dsimp only at h
              simp only [Option.pure_def, Option.some.injEq, Prod.mk.injEq] at h
              obtain ⟨hres, hst1⟩ := h
              obtain ⟨memS, pwS, idxS, gccS⟩ :=
                ihS cfg stA p esAll (i + 1) N M depth network ss st2 hS (by omega)
              obtain ⟨memL, pwL, idxL, gccL⟩ :=
                ihL cfg st2 esAll N M rest (i + 1) (sp + 1) depth network more st3 hL
                  (by omega)
              refine ⟨?_, ?_, ?_, ?_⟩
              · intro s hs
                rw [← hres] at hs
                rw [← hst1]
                rcases List.mem_append.mp hs with hs0 | hsl
                · rcases memS s hs0 with ⟨hnet, hgcc⟩ | ⟨hlo, hhi⟩
                  · exact Or.inl ⟨hnet, by omega⟩
                  · exact Or.inr ⟨by omega, by omega⟩
                · rcases memL s hsl with ⟨hnet, hgcc⟩ | ⟨hlo, hhi⟩
                  · exact Or.inl ⟨hnet, by omega⟩
                  · exact Or.inr ⟨by omega, by omega⟩
              · rw [← hres]
                rw [List.pairwise_append]
                refine ⟨pwS, pwL, ?_⟩
                intro s hs0 t htl heq
                rcases memS s hs0 with ⟨hnet, hgcc⟩ | ⟨hlo, hhi⟩ <;>
                  rcases memL t htl with ⟨hnet2, hgcc2⟩ | ⟨hlo2, hhi2⟩ <;> omega
              · rw [← hst1]
                omega
              · rw [← hst1]
                omega
            next hge =>
              obtain ⟨memL, pwL, idxL, gccL⟩ :=
                ihL cfg stA esAll N M rest (i + 1) sp depth network res st1 h (by omega)
              refine ⟨?_, pwL, by omega, by omega⟩
              intro s hs
              rcases memL s hs with ⟨hnet, hgcc⟩ | ⟨hlo, hhi⟩
              · exact Or.inl ⟨hnet, by omega⟩
              · exact Or.inr ⟨by omega, by omega⟩
    · -- sample
      intro cfg st p es nexti N M depth network res st1 h hn
      simp only [sample] at h
      split at h
      next hd =>
        rw [Option.bind_eq_bind, Option.bind_eq_some] at h
        obtain ⟨⟨more, stR⟩, hR, h⟩ := h
        try dsimp only at h
        simp only [Option.pure_def, Option.some.injEq, Prod.mk.injEq] at h
        obtain ⟨hres, hst1⟩ := h
        obtain ⟨memR, pwR, idxR, gccR⟩ :=
          ihR cfg st p (es.drop nexti) depth network more stR hR
        refine ⟨?_, ?_, ?_, ?_⟩
        · intro s hs
          rw [← hres] at hs
          rw [← hst1]
          rcases List.mem_cons.mp hs with hs0 | hsl
          · subst hs0
            exact Or.inl ⟨rfl, rfl⟩
          · obtain ⟨hlo, hhi⟩ := memR s hsl
            exact Or.inr ⟨by omega, by omega⟩
        · rw [← hres]
          rw [List.pairwise_cons]
          refine ⟨?_, pwR⟩
          intro t htl heq
          obtain ⟨hlo, hhi⟩ := memR t htl
          exfalso
          try dsimp only [SampleRel] at heq
          try dsimp only at heq
          omega
        · rw [← hst1]
          omega
        · rw [← hst1]
          omega
      next hd =>
        simp only [Option.some.injEq, Prod.mk.injEq] at h
        obtain ⟨hres, hst1⟩ := h
        rw [← hres, ← hst1]
        refine ⟨?_, ?_, le_refl _, rfl⟩
        · intro s hs
          rw [List.mem_singleton] at hs
          subst hs
          exact Or.inl ⟨rfl, rfl⟩
        · exact List.pairwise_singleton _ _
    · -- repercolate
      intro cfg st p es depth network res st1 h
      simp only [repercolate, Option.bind_eq_bind] at h
      rw [Option.bind_eq_some] at h
      obtain ⟨⟨ss, st2⟩, hP, h⟩ := h
      try dsimp only at h
      simp only [Option.pure_def, Option.some.injEq, Prod.mk.injEq] at h
      obtain ⟨hres, hst1⟩ := h
      obtain ⟨memP, pwP, idxP, gccP⟩ := ihP cfg _ es (depth + 1) ss st2 hP
      try dsimp only at memP idxP
      refine ⟨?_, ?_, ?_, ?_⟩
      · intro s hs
        rw [← hres] at hs
        rw [← hst1]
        obtain ⟨hlo, hhi⟩ := memP s hs
        try dsimp only at hlo hhi ⊢
        exact ⟨by omega, by omega⟩
      · rw [← hres]
        exact pwP
      · rw [← hst1]
        try dsimp only
        omega
      · rw [← hst1]

end ResidualBondPercolation

/-! ## Claims C5 and C6, amended forms -/

/-- C5, amended.  A slot whose generation tag is at most the current
parent boundary, differs from the requesting generation, and whose
component record is not the singleton `-1` is inaccessible: `rootOf`
returns nothing and leaves the entire state unchanged.  (A slot whose
record is `-1` is claimed by the requesting generation regardless of its
tag — including a singleton root of a live ancestor generation; see the
counterexample.) -/
theorem claim5_inaccessible_noop (fuel : Nat) (st : ResidualBondPercolation.State)
    (n : Node) (network np nn : Int)
    (hnp : st.components.get? n = some np) (hnn : st.networks.get? n = some nn)
    (h1 : np ≠ -1) (h2 : nn ≤ st.parent) (h3 : nn ≠ network) (hf : 0 < fuel) :
    ResidualBondPercolation.rootOf fuel st n network = some (none, st) := by
  match fuel, hf with
  | f + 1, _ =>
    have h4 : ¬ nn > st.parent := by omega
    simp only [ResidualBondPercolation.rootOf, hnp, hnn, Option.bind_eq_bind,
      Option.some_bind, h1, h3, h4, if_false, if_neg h1, if_neg h3, if_neg h4,
      Option.pure_def]

/-- C5 amended, witness: a slot of a live ancestor generation holding a
two-slot component root (record `-2`, tag `1 ≤ parent 1`) is left alone
by a generation-2 resolution. -/
theorem claim5_inaccessible_noop_witness :
    ResidualBondPercolation.rootOf 1 ⟨[-2], [1], 1, 1, 0, []⟩ 0 2
      = some (none, ⟨[-2], [1], 1, 1, 0, []⟩) :=
  claim5_inaccessible_noop 1 ⟨[-2], [1], 1, 1, 0, []⟩ 0 2 (-2) 1 rfl rfl
    (by decide) (by decide) (by decide) (by decide)

/-- C6, amended.  When either endpoint of an edge resolves as
inaccessible, the residual `occupy` returns nothing and leaves the GCC
counter — as well as the parent boundary, the generation counter and
`phis` — unchanged; but the endpoint resolutions themselves may already
have claimed, re-tagged, reset or path-compressed slots, so the
components and generation-tag arrays are not in general restored (see
the counterexample). -/
theorem claim6_occupy_inaccessible_gcc (fuel : Nat)
    (st st1 st2 : ResidualBondPercolation.State) (n m : Node) (network : Int)
    (nr? mr? : Option Node)
    (hn : ResidualBondPercolation.rootOf fuel st n network = some (nr?, st1))
    (hm : ResidualBondPercolation.rootOf fuel st1 m network = some (mr?, st2))
    (hnone : nr? = none ∨ mr? = none) :
    ResidualBondPercolation.occupy fuel st n m network = some (none, st2) ∧
      st2.gcc = st.gcc ∧ st2.parent = st.parent ∧
      st2.networkIndex = st.networkIndex ∧ st2.phis = st.phis := by
  obtain ⟨a1, a2, a3, a4⟩ := ResidualBondPercolation.rootOf_scalars fuel st n network nr? st1 hn
  obtain ⟨b1, b2, b3, b4⟩ := ResidualBondPercolation.rootOf_scalars fuel st1 m network mr? st2 hm
  refine ⟨?_, by omega, by omega, by omega, b4.trans a4⟩
  simp only [ResidualBondPercolation.occupy, hn, hm, Option.bind_eq_bind, Option.some_bind]
  rcases hnone with h | h
  · subst h
    rfl
  · subst h
    cases nr? with
    | none => rfl
    | some nr => rfl

/-- C6 amended, witness: occupying edge `(0, 1)` for generation 2 where
slot 1 is ancestor-owned returns nothing with GCC 7 and all scalar
bookkeeping unchanged, even though slot 0 was re-tagged. -/
theorem claim6_occupy_inaccessible_gcc_witness :
    ResidualBondPercolation.occupy 3 ⟨[-1, -2], [1, 1], 7, 1, 0, []⟩ 0 1 2
        = some (none, ⟨[-1, -2], [2, 1], 7, 1, 0, []⟩) ∧
      (ResidualBondPercolation.State.gcc ⟨[-1, -2], [2, 1], 7, 1, 0, []⟩)
        = (ResidualBondPercolation.State.gcc ⟨[-1, -2], [1, 1], 7, 1, 0, []⟩) ∧
      (ResidualBondPercolation.State.parent ⟨[-1, -2], [2, 1], 7, 1, 0, []⟩)
        = (ResidualBondPercolation.State.parent ⟨[-1, -2], [1, 1], 7, 1, 0, []⟩) ∧
      (ResidualBondPercolation.State.networkIndex ⟨[-1, -2], [2, 1], 7, 1, 0, []⟩)
        = (ResidualBondPercolation.State.networkIndex ⟨[-1, -2], [1, 1], 7, 1, 0, []⟩) ∧
      (ResidualBondPercolation.State.phis ⟨[-1, -2], [2, 1], 7, 1, 0, []⟩)
        = (ResidualBondPercolation.State.phis ⟨[-1, -2], [1, 1], 7, 1, 0, []⟩) :=
  claim6_occupy_inaccessible_gcc 3 ⟨[-1, -2], [1, 1], 7, 1, 0, []⟩
    ⟨[-1, -2], [2, 1], 7, 1, 0, []⟩ ⟨[-1, -2], [2, 1], 7, 1, 0, []⟩ 0 1 2
    (some 0) none (by with_unfolding_all decide) (by with_unfolding_all decide)
    (Or.inr rfl)

/-! ## Claim C7: emitted GCC values are non-decreasing per generation -/

/-- C7.  Within every single generation of every percolation run, the
GCC values carried by the emitted samples, in emission order — which
within one generation is the order of increasing sample probability —
are non-decreasing.  For the basic driver the whole emitted sequence is
one generation; for the residual driver any two records carrying the
same generation tag satisfy the bound. -/
theorem claim7_gcc_monotone :
    (∀ (ss : List ℚ) (es : List Edge) st res st1,
        BondPercolation.percolate ss es st = some (res, st1) →
        List.Chain' (· ≤ ·) (res.map Prod.snd)) ∧
    (∀ fuel cfg st es depth res st1,
        ResidualBondPercolation.percolate fuel cfg st es depth = some (res, st1) →
        res.Pairwise (fun s t => s.network = t.network → s.gcc ≤ t.gcc)) := by
  constructor
  · exact BondPercolation.percolate_gcc_chain
  · intro fuel cfg st es depth res st1 h
    exact ((ResidualBondPercolation.residual_mono fuel).1 cfg st es depth res st1 h).2.1

/-- C7, witness: the basic 4-node path run emits GCC values `1, 3, 4`
(a non-decreasing chain), and a residual run over a 3-node path emits
two generation-1 records with GCC `2 ≤ 3`. -/
theorem claim7_gcc_monotone_witness :
    List.Chain' (· ≤ ·)
      (([((0 : ℚ), (1 : Int)), (17/50, 3), (67/100, 4)]).map Prod.snd) ∧
    ([(⟨[], 0, 3, 2, 1/2, 2, 1⟩ : ResidualBondPercolation.Sample),
        ⟨[], 0, 3, 2, 1, 3, 1⟩].Pairwise
      (fun s t => s.network = t.network → s.gcc ≤ t.gcc)) :=
  ⟨claim7_gcc_monotone.1 [0, 17/50, 67/100, 1] [(0, 1), (1, 2), (2, 3)]
      (BondPercolation.setUp 4) [(0, 1), (17/50, 3), (67/100, 4)] ⟨[-4, 0, 0, 0], 4⟩
      (by with_unfolding_all decide),
    claim7_gcc_monotone.2 10 ⟨[1/2, 1], 0, 3⟩
      (ResidualBondPercolation.setUp ⟨[1/2, 1], 0, 3⟩) [(0, 1), (1, 2)] 0
      [⟨[], 0, 3, 2, 1/2, 2, 1⟩, ⟨[], 0, 3, 2, 1, 3, 1⟩]
      ⟨[-3, 0, 0], [1, 1, 1], 3, 0, 1, []⟩
      (by with_unfolding_all decide)⟩

/-! ## Claim C10: recursion preserves ancestors' multi-node components -/

/-- C10.  A recursive sub-pass started by `repercolate` with parent
boundary `network` (together with all of its descendants, which the call
contains) never modifies the component record or generation tag of a
slot owned by a generation `≤ network` — every live ancestor — whose
record is not the singleton `-1`; every slot of an ancestor component of
size ≥ 2 is of that shape.  On return, the caller's GCC counter and
parent boundary hold exactly their pre-call values.  The hypothesis
`network ≤ st.networkIndex` holds at every call site: `network` is a
generation id allocated by an earlier `percolate` entry. -/
theorem claim10_repercolate_frame (fuel : Nat) (cfg : ResidualBondPercolation.Config)
    (st : ResidualBondPercolation.State) (p : ℚ) (es : List Edge) (depth network : Int)
    (res : List ResidualBondPercolation.Sample) (st1 : ResidualBondPercolation.State)
    (h : ResidualBondPercolation.repercolate fuel cfg st p es depth network = some (res, st1))
    (hn : network ≤ st.networkIndex) :
    st1.gcc = st.gcc ∧ st1.parent = st.parent ∧
      ∀ u tu cu, st.networks.get? u = some tu → st.components.get? u = some cu →
        tu ≤ network → cu ≠ -1 →
        st1.networks.get? u = some tu ∧ st1.components.get? u = some cu := by
  obtain ⟨Rp, Rpar, Ridx, Rgcc⟩ :=
    (ResidualBondPercolation.residual_frame fuel).2.2.2 network cfg st p es depth network
      res st1 h le_rfl hn
  exact ⟨Rgcc, Rpar, Rp⟩

/-- C10, witness: a sub-pass over no edges spawned from a state where
generation 1 owns the two-slot component `[-2, 0]`; slot 0 (the root,
record `-2`, tag `1`) is untouched, and GCC and parent are restored. -/
theorem claim10_repercolate_frame_witness :
    (ResidualBondPercolation.State.networks
        ⟨[-2, 0], [1, 1], 2, 0, 2, []⟩).get? 0 = some 1 ∧
    (ResidualBondPercolation.State.components
        ⟨[-2, 0], [1, 1], 2, 0, 2, []⟩).get? 0 = some (-2) := by
  have H := claim10_repercolate_frame 10 ⟨[1], 0, 2⟩ ⟨[-2, 0], [1, 1], 2, 0, 1, []⟩
    (1/2) [] 0 1 [] ⟨[-2, 0], [1, 1], 2, 0, 2, []⟩
    (by with_unfolding_all decide) (by decide)
  exact H.2.2 0 1 (-2) rfl rfl (by decide) (by decide)

end CNCP